import Mathlib

/-!
Verification of the media-group aggregation and conversion engine of the
`grammy-media-groups` repository, shallowly embedded from `src/storage.ts`
and `src/mod.ts`.

The embedding covers:
- the fragment store `storeMessages` (batched, deduplicating, order-preserving
  upsert against a pluggable key-value backend),
- the result classifier `MEDIA_GROUP_METHODS` together with the transformer's
  lookup step,
- the media converter `toInputMedia`.

Conventions: the backend is a function `String → Option (List Message)`;
JavaScript exceptions are modelled by `Option`/`Except` results; JavaScript
object-key insertion order is modelled by an association list.
-/

set_option autoImplicit false

namespace MediaGroups

/-! ## Data model (from grammY's `Message` type, fields the engine reads) -/

/-- The chat a message belongs to; only `id` is read by the engine. -/
structure Chat where
  id : Int
deriving DecidableEq, Repr

/-- A media payload object; the converter only reads its `file_id`. -/
structure FileRef where
  file_id : String
deriving DecidableEq, Repr

/-- A caption formatting entity (opaque to the engine, passed through). -/
structure MessageEntity where
  etype : String
  offset : Nat
  length : Nat
deriving DecidableEq, Repr

/-- A Telegram message, restricted to the fields the engine reads.
`text` stands in for the pass-through payload so that two messages with the
same composite identity can differ. -/
structure Message where
  message_id : Int
  chat : Chat
  media_group_id : Option String := none
  text : Option String := none
  caption : Option String := none
  caption_entities : Option (List MessageEntity) := none
  photo : Option (List FileRef) := none
  video : Option FileRef := none
  animation : Option FileRef := none
  document : Option FileRef := none
  audio : Option FileRef := none
deriving DecidableEq, Repr

/-- Composite identity of a message: the pair `(message_id, chat.id)`. -/
def idOf (m : Message) : Int × Int :=
  (m.message_id, m.chat.id)

/-- The dedup test of `storeMessages`:
`m.message_id === message.message_id && m.chat.id === message.chat.id`. -/
def sameIdentity (a b : Message) : Bool :=
  a.message_id == b.message_id && a.chat.id == b.chat.id

theorem sameIdentity_iff {a b : Message} : sameIdentity a b = true ↔ idOf a = idOf b := by
  simp [sameIdentity, idOf, Prod.ext_iff]

theorem sameIdentity_eq_false {a b : Message} :
    sameIdentity a b = false ↔ idOf a ≠ idOf b := by
  rw [← Bool.not_eq_true, not_iff_not]
  exact sameIdentity_iff

/-- The group key of a message: `media_group_id`, with the source's truthiness
test (`if (!media_group_id) continue`), under which the empty string also
counts as absent. -/
def groupKeyOf (m : Message) : Option String :=
  match m.media_group_id with
  | none => none
  | some k => if k = "" then none else some k

/-! ## The fragment store (`storeMessages` in `src/storage.ts`) -/

/-- A stored group: the ordered list of messages sharing one group key. -/
abbrev Group := List Message

/-- The key-value backend: `adapter.read` as a pure lookup. -/
abbrev Backend := String → Option Group

/-- JavaScript's `Array.prototype.findIndex`, with `-1` modelled as `none`. -/
def findIndex (p : Message → Bool) : Group → Option Nat
  | [] => none
  | x :: rest => if p x then some 0 else (findIndex p rest).map (· + 1)

/-- One upsert step of `storeMessages`:
`group[index >= 0 ? index : group.length] = message`. -/
def upsert (group : Group) (message : Message) : Group :=
  match findIndex (fun m => sameIdentity m message) group with
  | some i => group.set i message
  | none => group ++ [message]

/-- The in-memory `groups` record built during a `storeMessages` call,
as an association list in JavaScript object-key insertion order. -/
abbrev GroupsMap := List (String × Group)

/-- Property lookup `groups[key]` on the in-memory record. -/
def lookupGroup : GroupsMap → String → Option Group
  | [], _ => none
  | (k', g) :: rest, k => if k' = k then some g else lookupGroup rest k

/-- Property assignment `groups[key] = group`: replaces the binding in place
when the key is present, appends it otherwise (JS object key order). -/
def setGroup : GroupsMap → String → Group → GroupsMap
  | [], k, g => [(k, g)]
  | (k', g') :: rest, k, g =>
    if k' = k then (k, g) :: rest else (k', g') :: setGroup rest k g

/-- The state threaded through the message loop of `storeMessages`: the
`groups` record plus the log of backend reads issued so far, in order. -/
structure StoreState where
  groups : GroupsMap
  reads : List String
deriving Repr

/-- The `for (const message of messages)` loop of `storeMessages`: a message
without a (truthy) `media_group_id` is skipped; the first message of each key
triggers the single backend read (`groups[k] ??= (await adapter.read(k)) ?? []`);
every message is then upserted into the in-memory group. -/
def storeLoop (adapter : Backend) : List Message → StoreState → StoreState
  | [], st => st
  | message :: rest, st =>
    match groupKeyOf message with
    | none => storeLoop adapter rest st
    | some key =>
      match lookupGroup st.groups key with
      | some group =>
          storeLoop adapter rest
            { st with groups := setGroup st.groups key (upsert group message) }
      | none =>
          let group := (adapter key).getD []
          storeLoop adapter rest
            { groups := setGroup st.groups key (upsert group message),
              reads := st.reads ++ [key] }

/-- The effects of one `storeMessages` call: the final `groups` record (one
`adapter.write` per entry) and the ordered log of `adapter.read` calls. -/
def storeEffects (adapter : Backend) (messages : List Message) : StoreState :=
  storeLoop adapter messages ⟨[], []⟩

/-- Applies the batch of writes (`Promise.all(... adapter.write(key, value))`)
to the backend. -/
def applyWrites (adapter : Backend) : GroupsMap → Backend
  | [] => adapter
  | (k, g) :: rest => applyWrites (fun key => if key = k then some g else adapter key) rest

/-- `storeMessages` as a backend transformer: the loop of per-key reads and
in-memory upserts followed by one write per touched key. -/
def storeMessages (adapter : Backend) (messages : List Message) : Backend :=
  applyWrites adapter (storeEffects adapter messages).groups

/-- The batch restricted to one group key, in arrival order. -/
def batchFor (k : String) (messages : List Message) : List Message :=
  messages.filter (fun m => groupKeyOf m == some k)

/-- Backends reachable from the empty backend by `storeMessages` calls. -/
inductive Reachable : Backend → Prop
  | empty : Reachable (fun _ => none)
  | step (adapter : Backend) (messages : List Message) :
      Reachable adapter → Reachable (storeMessages adapter messages)

/-! ## The fallible-read run of `storeMessages` (for read-failure atomicity)

`adapter.read` is an async call that may reject; the loop awaits each read, so
a rejection aborts the call before `Promise.all` issues any write. -/

/-- A backend whose reads may reject. -/
abbrev AdapterE := String → Except String (Option Group)

/-- A fallible view of `base` in which reads of keys selected by `failing`
reject. -/
def adapterOf (base : Backend) (failing : String → Bool) : AdapterE :=
  fun k => if failing k then Except.error "read failed" else Except.ok (base k)

/-- The message loop of `storeMessages` over a fallible adapter: a rejected
read propagates and aborts the loop. -/
def storeLoopE (adapter : AdapterE) : List Message → StoreState → Except String StoreState
  | [], st => Except.ok st
  | message :: rest, st =>
    match groupKeyOf message with
    | none => storeLoopE adapter rest st
    | some key =>
      match lookupGroup st.groups key with
      | some group =>
          storeLoopE adapter rest
            { st with groups := setGroup st.groups key (upsert group message) }
      | none =>
          match adapter key with
          | Except.error e => Except.error e
          | Except.ok v =>
              let group := v.getD []
              storeLoopE adapter rest
                { groups := setGroup st.groups key (upsert group message),
                  reads := st.reads ++ [key] }

/-- `storeMessages` over a fallible adapter reading from `base`: the writes
run only after the whole loop succeeded, so an error leaves `base` untouched. -/
def storeMessagesE (adapter : AdapterE) (base : Backend) (messages : List Message) : Backend :=
  match storeLoopE adapter messages ⟨[], []⟩ with
  | Except.ok st => applyWrites base st.groups
  | Except.error _ => base

/-! ## The result classifier (`MEDIA_GROUP_METHODS` and the transformer) -/

/-- A runtime JavaScript value, as far as the classifier inspects it. -/
inductive JsValue where
  | nullv : JsValue
  | undef : JsValue
  | boolv (b : Bool) : JsValue
  | numv (n : Int) : JsValue
  | strv (s : String) : JsValue
  | arrv (elems : List JsValue) : JsValue
  | objv (m : Message) : JsValue
deriving Repr

/-- JavaScript's `result !== null && typeof result === "object"` test
(arrays are objects; `null` is ruled out by the explicit first conjunct). -/
def isJsObject : JsValue → Bool
  | JsValue.arrv _ => true
  | JsValue.objv _ => true
  | _ => false

/-- JavaScript's `Array.isArray(result)` test. -/
def isJsArray : JsValue → Bool
  | JsValue.arrv _ => true
  | _ => false

/-- `toArray` in `src/storage.ts`: wraps any result in a one-element array. -/
def toArray (result : JsValue) : List JsValue :=
  [result]

/-- `toArrayIfObject` in `src/storage.ts`: a non-null object result in a
one-element array, anything else (such as the boolean `true`) the empty
array. -/
def toArrayIfObject (result : JsValue) : List JsValue :=
  if isJsObject result then [result] else []

/-- The `sendMediaGroup` entry: an array result verbatim, otherwise empty. -/
def sendMediaGroupRule (result : JsValue) : List JsValue :=
  match result with
  | JsValue.arrv elems => elems
  | _ => []

/-- The static extraction table `MEDIA_GROUP_METHODS` of `src/storage.ts`. -/
def MEDIA_GROUP_METHODS : List (String × (JsValue → List JsValue)) :=
  [("sendMediaGroup", sendMediaGroupRule),
   ("forwardMessage", toArray),
   ("editMessageMedia", toArrayIfObject),
   ("editMessageCaption", toArrayIfObject),
   ("editMessageReplyMarkup", toArrayIfObject)]

/-- The transformer's table lookup `MEDIA_GROUP_METHODS[method]`. -/
def lookupMethod (method : String) : Option (JsValue → List JsValue) :=
  (MEDIA_GROUP_METHODS.find? (fun p => p.1 = method)).map Prod.snd

/-- The classification step of `mediaGroupTransformer`: an unregistered method
name has no extractor, so nothing is handed to the store — modelled as the
empty candidate list. -/
def extractCandidates (method : String) (result : JsValue) : List JsValue :=
  match lookupMethod method with
  | some f => f result
  | none => []

/-! ## The media converter (`toInputMedia` in `src/storage.ts`) -/

/-- The options record of `toInputMedia`. -/
structure ToInputMediaOptions where
  caption : Option String := none
  parse_mode : Option String := none
  caption_entities : Option (List MessageEntity) := none
  show_caption_above_media : Option Bool := none
  has_spoiler : Option Bool := none
deriving DecidableEq, Repr

/-- An outbound media descriptor, as built by grammY's `InputMediaBuilder`
(`InputMediaBuilder.photo(media, options)` spreads `options` into
`{ type: "photo", media }`, and likewise for the other types). -/
structure InputMedia where
  mtype : String
  media : String
  caption : Option String := none
  parse_mode : Option String := none
  caption_entities : Option (List MessageEntity) := none
  show_caption_above_media : Option Bool := none
  has_spoiler : Option Bool := none
deriving DecidableEq, Repr

/-- One step of the `flatMap` in `toInputMedia`, at input index `i`.
`none` models a thrown `TypeError`: for a photo message the source reads
`msg.photo.at(-1)!.file_id`, which throws when the variant list is empty.
The `switch (true)` cases are tried in source order (photo, video, animation,
document, audio); an unmatched message yields the empty contribution. -/
def projectMessage (options : ToInputMediaOptions) (i : Nat) (msg : Message) :
    Option (List InputMedia) :=
  let overrideCaption := options.caption.isSome && i == 0
  let cap := if overrideCaption then options.caption else msg.caption
  let pm := if overrideCaption then options.parse_mode else none
  let ents := if overrideCaption then options.caption_entities else msg.caption_entities
  match msg.photo with
  | some ps =>
    match ps.getLast? with
    | some p =>
        some [{ mtype := "photo", media := p.file_id, caption := cap, parse_mode := pm,
                caption_entities := ents,
                show_caption_above_media := options.show_caption_above_media,
                has_spoiler := options.has_spoiler }]
    | none => none
  | none =>
  match msg.video with
  | some v =>
      some [{ mtype := "video", media := v.file_id, caption := cap, parse_mode := pm,
              caption_entities := ents,
              show_caption_above_media := options.show_caption_above_media,
              has_spoiler := options.has_spoiler }]
  | none =>
  match msg.animation with
  | some a =>
      some [{ mtype := "video", media := a.file_id, caption := cap, parse_mode := pm,
              caption_entities := ents,
              show_caption_above_media := options.show_caption_above_media,
              has_spoiler := options.has_spoiler }]
  | none =>
  match msg.document with
  | some d =>
      some [{ mtype := "document", media := d.file_id, caption := cap, parse_mode := pm,
              caption_entities := ents }]
  | none =>
  match msg.audio with
  | some a =>
      some [{ mtype := "audio", media := a.file_id, caption := cap, parse_mode := pm,
              caption_entities := ents }]
  | none => some []

/-- The indexed `flatMap` of `toInputMedia`, starting at input index `i`;
a thrown `TypeError` in any step propagates. -/
def projectFrom (options : ToInputMediaOptions) : Nat → List Message → Option (List InputMedia)
  | _, [] => some []
  | i, msg :: rest =>
    match projectMessage options i msg, projectFrom options (i + 1) rest with
    | some items, some out => some (items ++ out)
    | _, _ => none

/-- `toInputMedia`: converts a stored group into outbound media descriptors. -/
def toInputMedia (messages : List Message) (options : ToInputMediaOptions := {}) :
    Option (List InputMedia) :=
  projectFrom options 0 messages

/-! ## List helpers -/

theorem set_of_getElem_eq {α : Type} :
    ∀ (l : List α) (i : Nat) (a : α), l[i]? = some a → l.set i a = l := by
  intro l
  induction l with
  | nil => intro i a h; simp at h
  | cons x rest ih =>
    intro i a h
    cases i with
    | zero => simp_all
    | succ j =>
      simp only [List.getElem?_cons_succ] at h
      simp [List.set, ih j a h]

/-! ## Properties of `findIndex` -/

theorem findIndex_eq_none {p : Message → Bool} :
    ∀ {g : Group}, findIndex p g = none ↔ ∀ x ∈ g, p x = false := by
  intro g
  induction g with
  | nil => simp [findIndex]
  | cons x rest ih =>
    by_cases hx : p x <;> simp [findIndex, hx, ih]

theorem findIndex_eq_some {p : Message → Bool} :
    ∀ {g : Group} {i : Nat}, findIndex p g = some i →
      ∃ x, g[i]? = some x ∧ p x = true := by
  intro g
  induction g with
  | nil => intro i h; simp [findIndex] at h
  | cons x rest ih =>
    intro i h
    by_cases hx : p x
    · simp [findIndex, hx] at h
      exact ⟨x, by simp [← h], hx⟩
    · simp [findIndex, hx] at h
      obtain ⟨j, hj, hji⟩ := h
      obtain ⟨y, hy, hpy⟩ := ih hj
      exact ⟨y, by simp [← hji, hy], hpy⟩

/-- Position search depends only on the identity sequence. -/
def idxOfId : List (Int × Int) → (Int × Int) → Option Nat
  | [], _ => none
  | x :: rest, k => if x = k then some 0 else (idxOfId rest k).map (· + 1)

theorem findIndex_eq_idxOfId (m : Message) :
    ∀ (g : Group),
      findIndex (fun x => sameIdentity x m) g = idxOfId (g.map idOf) (idOf m) := by
  intro g
  induction g with
  | nil => rfl
  | cons x rest ih =>
    by_cases hx : idOf x = idOf m
    · simp [findIndex, idxOfId, sameIdentity_iff.mpr hx, hx]
    · have hb : sameIdentity x m = false := sameIdentity_eq_false.mpr hx
      simp [findIndex, idxOfId, hb, hx, ih]

theorem idxOfId_append_of_some {ids t : List (Int × Int)} {k : Int × Int} {i : Nat} :
    idxOfId ids k = some i → idxOfId (ids ++ t) k = some i := by
  induction ids generalizing i with
  | nil => intro h; simp [idxOfId] at h
  | cons x rest ih =>
    intro h
    by_cases hx : x = k
    · simp [idxOfId, hx] at h ⊢; exact h
    · simp [idxOfId, hx] at h ⊢
      obtain ⟨j, hj, hji⟩ := h
      exact ⟨j, ih hj, hji⟩

theorem idxOfId_lt_length {ids : List (Int × Int)} {k : Int × Int} {i : Nat} :
    idxOfId ids k = some i → i < ids.length := by
  induction ids generalizing i with
  | nil => intro h; simp [idxOfId] at h
  | cons x rest ih =>
    intro h
    by_cases hx : x = k
    · simp [idxOfId, hx] at h
      simp only [List.length_cons]
      omega
    · simp [idxOfId, hx] at h
      obtain ⟨j, hj, hji⟩ := h
      have hlt := ih hj
      simp only [List.length_cons]
      omega

theorem findIndex_some_lt {m : Message} {g : Group} {i : Nat}
    (h : findIndex (fun x => sameIdentity x m) g = some i) : i < g.length := by
  rw [findIndex_eq_idxOfId] at h
  have := idxOfId_lt_length h
  simpa using this

/-! ## Properties of `upsert` -/

theorem upsert_of_absent {g : Group} {m : Message}
    (h : ∀ x ∈ g, idOf x ≠ idOf m) : upsert g m = g ++ [m] := by
  have : findIndex (fun x => sameIdentity x m) g = none :=
    findIndex_eq_none.mpr (fun x hx => sameIdentity_eq_false.mpr (h x hx))
  simp [upsert, this]

theorem upsert_of_found {g : Group} {m : Message} {i : Nat}
    (h : findIndex (fun x => sameIdentity x m) g = some i) :
    upsert g m = g.set i m := by
  simp [upsert, h]

/-- The identity sequence after an upsert: unchanged when the identity was
found, extended by one otherwise. -/
theorem upsert_map_idOf (g : Group) (m : Message) :
    (upsert g m).map idOf = g.map idOf ∨
      (upsert g m).map idOf = g.map idOf ++ [idOf m] := by
  cases hf : findIndex (fun x => sameIdentity x m) g with
  | none => right; simp [upsert, hf]
  | some i =>
    left
    obtain ⟨x, hx, hpx⟩ := findIndex_eq_some hf
    have hid : idOf x = idOf m := sameIdentity_iff.mp hpx
    have hmap : (g.map idOf)[i]? = some (idOf m) := by
      simp [List.getElem?_map, hx, hid]
    calc (upsert g m).map idOf = (g.set i m).map idOf := by rw [upsert_of_found hf]
      _ = (g.map idOf).set i (idOf m) := by simp [List.map_set]
      _ = g.map idOf := set_of_getElem_eq _ _ _ hmap

theorem upsert_mem {g : Group} {m x : Message} (h : x ∈ upsert g m) :
    x ∈ g ∨ x = m := by
  unfold upsert at h
  cases hf : findIndex (fun y => sameIdentity y m) g with
  | none => rw [hf] at h; simpa using h
  | some i => rw [hf] at h; exact List.mem_or_eq_of_mem_set h

/-- Upserting a message whose identity was never seen appends it;
the stored position of a found identity receives the new message and
all other positions are untouched. -/
theorem upsert_set_facts {g : Group} {m : Message} {i : Nat}
    (h : findIndex (fun x => sameIdentity x m) g = some i) :
    (upsert g m)[i]? = some m ∧ (upsert g m).length = g.length ∧
      ∀ j, j ≠ i → (upsert g m)[j]? = g[j]? := by
  have hlt : i < g.length := findIndex_some_lt h
  rw [upsert_of_found h]
  refine ⟨?_, by simp, ?_⟩
  · rw [List.getElem?_set_self hlt]
  · intro j hj
    exact List.getElem?_set_ne (Ne.symm hj)

/-! ## Properties of the in-memory groups record -/

/-- Key sequence of the groups record (object-key insertion order). -/
def keysOf (gs : GroupsMap) : List String :=
  gs.map Prod.fst

@[simp] theorem keysOf_nil : keysOf [] = [] := rfl

@[simp] theorem keysOf_cons (k : String) (g : Group) (rest : GroupsMap) :
    keysOf ((k, g) :: rest) = k :: keysOf rest := rfl

theorem lookupGroup_eq_none {gs : GroupsMap} {k : String} :
    lookupGroup gs k = none ↔ k ∉ keysOf gs := by
  induction gs with
  | nil => simp [lookupGroup]
  | cons p rest ih =>
    obtain ⟨k', g⟩ := p
    by_cases hk : k' = k
    · subst hk; simp [lookupGroup]
    · simp [lookupGroup, hk, ih, List.mem_cons, Ne.symm hk]

theorem lookupGroup_mem {gs : GroupsMap} {k : String} {g : Group}
    (h : lookupGroup gs k = some g) : (k, g) ∈ gs := by
  induction gs with
  | nil => simp [lookupGroup] at h
  | cons p rest ih =>
    obtain ⟨k', g'⟩ := p
    by_cases hk : k' = k
    · subst hk
      simp [lookupGroup] at h
      simp [h]
    · simp [lookupGroup, hk] at h
      exact List.mem_cons_of_mem _ (ih h)

theorem lookupGroup_setGroup_self (gs : GroupsMap) (k : String) (g : Group) :
    lookupGroup (setGroup gs k g) k = some g := by
  induction gs with
  | nil => simp [setGroup, lookupGroup]
  | cons p rest ih =>
    obtain ⟨k', g'⟩ := p
    by_cases hk : k' = k <;> simp [setGroup, lookupGroup, hk, ih]

theorem lookupGroup_setGroup_other {k k' : String} (hne : k' ≠ k)
    (gs : GroupsMap) (g : Group) :
    lookupGroup (setGroup gs k' g) k = lookupGroup gs k := by
  induction gs with
  | nil => simp [setGroup, lookupGroup, hne]
  | cons p rest ih =>
    obtain ⟨k'', g''⟩ := p
    by_cases hk : k'' = k'
    · subst hk; simp [setGroup, lookupGroup, hne]
    · simp [setGroup, hk, lookupGroup, ih]

theorem keysOf_setGroup_mem {gs : GroupsMap} {k : String} (h : k ∈ keysOf gs) (g : Group) :
    keysOf (setGroup gs k g) = keysOf gs := by
  induction gs with
  | nil => simp at h
  | cons p rest ih =>
    obtain ⟨k', g'⟩ := p
    by_cases hk : k' = k
    · subst hk; simp [setGroup]
    · simp [List.mem_cons, Ne.symm hk] at h
      simp [setGroup, hk, ih h]

theorem setGroup_of_absent {gs : GroupsMap} {k : String} (h : k ∉ keysOf gs) (g : Group) :
    setGroup gs k g = gs ++ [(k, g)] := by
  induction gs with
  | nil => simp [setGroup]
  | cons p rest ih =>
    obtain ⟨k', g'⟩ := p
    simp [List.mem_cons] at h
    push_neg at h
    simp [setGroup, Ne.symm h.1, ih h.2]

theorem mem_setGroup {gs : GroupsMap} {k : String} {g : Group} {q : String × Group}
    (h : q ∈ setGroup gs k g) : q = (k, g) ∨ q ∈ gs := by
  induction gs with
  | nil => simp [setGroup] at h; simp [h]
  | cons p rest ih =>
    obtain ⟨k', g'⟩ := p
    by_cases hk : k' = k
    · subst hk
      simp [setGroup] at h
      rcases h with h | h
      · left; simp [h]
      · right; exact List.mem_cons_of_mem _ h
    · simp [setGroup, hk] at h
      rcases h with h | h
      · right; simp [h]
      · rcases ih h with h' | h'
        · left; exact h'
        · right; exact List.mem_cons_of_mem _ h'

/-! ## Store-loop invariants -/

/-- The groups record's key sequence coincides with the read log throughout
the loop: every new key triggers exactly one backend read, in order. -/
theorem storeLoop_keys_eq_reads (adapter : Backend) :
    ∀ (messages : List Message) (st : StoreState),
      keysOf st.groups = st.reads →
      keysOf (storeLoop adapter messages st).groups = (storeLoop adapter messages st).reads := by
  intro messages
  induction messages with
  | nil => intro st h; simpa [storeLoop]
  | cons m rest ih =>
    intro st h
    cases hk : groupKeyOf m with
    | none => simp [storeLoop, hk]; exact ih st h
    | some key =>
      cases hl : lookupGroup st.groups key with
      | some group =>
        simp [storeLoop, hk, hl]
        apply ih
        have hmem : key ∈ keysOf st.groups := by
          by_contra hc
          rw [← lookupGroup_eq_none] at hc
          simp [hc] at hl
        simpa [keysOf_setGroup_mem hmem]
      | none =>
        simp [storeLoop, hk, hl]
        apply ih
        have habs : key ∉ keysOf st.groups := lookupGroup_eq_none.mp hl
        simp [setGroup_of_absent habs, keysOf, h]
        simp [keysOf] at h
        exact h

/-- Reads already logged stay logged. -/
theorem storeLoop_reads_mono (adapter : Backend) :
    ∀ (messages : List Message) (st : StoreState) (k : String),
      k ∈ st.reads → k ∈ (storeLoop adapter messages st).reads := by
  intro messages
  induction messages with
  | nil => intro st k h; simpa [storeLoop]
  | cons m rest ih =>
    intro st k h
    cases hk : groupKeyOf m with
    | none => simp only [storeLoop, hk]; exact ih st k h
    | some key =>
      cases hl : lookupGroup st.groups key with
      | some group => simp only [storeLoop, hk, hl]; exact ih _ k h
      | none =>
        simp only [storeLoop, hk, hl]
        exact ih _ k (by simp [h])

/-- The read log stays duplicate-free: a key is read only on first touch. -/
theorem storeLoop_reads_nodup (adapter : Backend) :
    ∀ (messages : List Message) (st : StoreState),
      keysOf st.groups = st.reads → st.reads.Nodup →
      (storeLoop adapter messages st).reads.Nodup := by
  intro messages
  induction messages with
  | nil => intro st h hn; simpa [storeLoop]
  | cons m rest ih =>
    intro st h hn
    cases hk : groupKeyOf m with
    | none => simp only [storeLoop, hk]; exact ih st h hn
    | some key =>
      cases hl : lookupGroup st.groups key with
      | some group =>
        simp only [storeLoop, hk, hl]
        refine ih _ ?_ hn
        have hmem : key ∈ keysOf st.groups := by
          by_contra hc
          rw [← lookupGroup_eq_none] at hc
          simp [hc] at hl
        simpa [keysOf_setGroup_mem hmem]
      | none =>
        simp only [storeLoop, hk, hl]
        have habs : key ∉ keysOf st.groups := lookupGroup_eq_none.mp hl
        refine ih _ ?_ ?_
        · simp [setGroup_of_absent habs, keysOf, h]
          simp [keysOf] at h
          exact h
        · simp [List.nodup_append, hn]
          rw [← h]
          exact habs

/-- Keys are read only for group keys occurring in the batch. -/
theorem storeLoop_reads_from_batch (adapter : Backend) :
    ∀ (messages : List Message) (st : StoreState) (k : String),
      k ∈ (storeLoop adapter messages st).reads →
      k ∈ st.reads ∨ ∃ m ∈ messages, groupKeyOf m = some k := by
  intro messages
  induction messages with
  | nil => intro st k h; simp [storeLoop] at h; exact Or.inl h
  | cons m rest ih =>
    intro st k h
    cases hk : groupKeyOf m with
    | none =>
      simp only [storeLoop, hk] at h
      rcases ih st k h with h' | ⟨m', hm', hk'⟩
      · exact Or.inl h'
      · exact Or.inr ⟨m', List.mem_cons_of_mem _ hm', hk'⟩
    | some key =>
      cases hl : lookupGroup st.groups key with
      | some group =>
        simp only [storeLoop, hk, hl] at h
        rcases ih _ k h with h' | ⟨m', hm', hk'⟩
        · exact Or.inl h'
        · exact Or.inr ⟨m', List.mem_cons_of_mem _ hm', hk'⟩
      | none =>
        simp only [storeLoop, hk, hl] at h
        rcases ih _ k h with h' | ⟨m', hm', hk'⟩
        · simp at h'
          rcases h' with h' | h'
          · exact Or.inl h'
          · subst h'; exact Or.inr ⟨m, List.mem_cons_self _ _, hk⟩
        · exact Or.inr ⟨m', List.mem_cons_of_mem _ hm', hk'⟩

/-- Provenance: every message held in the groups record either came from the
single backend read of its key or is a batch message carrying that key. -/
theorem storeLoop_provenance (adapter : Backend) :
    ∀ (messages : List Message) (st : StoreState),
      (∀ p ∈ st.groups, ∀ x ∈ p.2, x ∈ (adapter p.1).getD [] ∨ groupKeyOf x = some p.1) →
      ∀ p ∈ (storeLoop adapter messages st).groups, ∀ x ∈ p.2,
        x ∈ (adapter p.1).getD [] ∨ groupKeyOf x = some p.1 := by
  intro messages
  induction messages with
  | nil => intro st h; exact h
  | cons m rest ih =>
    intro st h
    cases hk : groupKeyOf m with
    | none =>
      simp only [storeLoop, hk]
      exact ih st h
    | some key =>
      have step : ∀ (base : Group),
          (∀ x ∈ base, x ∈ (adapter key).getD [] ∨ groupKeyOf x = some key) →
          ∀ p ∈ setGroup st.groups key (upsert base m), ∀ x ∈ p.2,
            x ∈ (adapter p.1).getD [] ∨ groupKeyOf x = some p.1 := by
        intro base hbase p hp x hx
        rcases mem_setGroup hp with hp' | hp'
        · subst hp'
          rcases upsert_mem hx with hx' | hx'
          · exact hbase x hx'
          · subst hx'; exact Or.inr hk
        · exact h p hp' x hx
      cases hl : lookupGroup st.groups key with
      | some group =>
        simp only [storeLoop, hk, hl]
        exact ih _ (step group (fun x hx => h _ (lookupGroup_mem hl) x hx))
      | none =>
        simp only [storeLoop, hk, hl]
        exact ih _ (step ((adapter key).getD []) (fun x hx => Or.inl hx))

@[simp] theorem batchFor_nil (k : String) : batchFor k [] = [] := rfl

theorem batchFor_cons (k : String) (m : Message) (rest : List Message) :
    batchFor k (m :: rest) =
      if groupKeyOf m = some k then m :: batchFor k rest else batchFor k rest := by
  by_cases h : groupKeyOf m = some k <;> simp [batchFor, h]

/-- Once a key is present in the groups record, the loop folds exactly the
key's sub-batch into it, in arrival order. -/
theorem storeLoop_lookup_some (adapter : Backend) :
    ∀ (messages : List Message) (st : StoreState) (k : String) (g : Group),
      lookupGroup st.groups k = some g →
      lookupGroup (storeLoop adapter messages st).groups k =
        some ((batchFor k messages).foldl upsert g) := by
  intro messages
  induction messages with
  | nil => intro st k g h; simpa [storeLoop]
  | cons m rest ih =>
    intro st k g h
    cases hk : groupKeyOf m with
    | none =>
      have hb : groupKeyOf m = some k → False := by simp [hk]
      simp only [storeLoop, hk]
      rw [ih st k g h, batchFor_cons]
      simp [hk]
    | some key =>
      by_cases hkey : key = k
      · subst hkey
        simp only [storeLoop, hk, h]
        rw [ih _ key (upsert g m) (lookupGroup_setGroup_self _ _ _), batchFor_cons]
        simp [hk]
      · cases hl : lookupGroup st.groups key with
        | some group =>
          simp only [storeLoop, hk, hl]
          have h' : lookupGroup (setGroup st.groups key (upsert group m)) k = some g := by
            rw [lookupGroup_setGroup_other hkey]; exact h
          rw [ih _ k g h', batchFor_cons]
          simp [hk, hkey]
        | none =>
          simp only [storeLoop, hk, hl]
          have h' : lookupGroup (setGroup st.groups key (upsert ((adapter key).getD []) m)) k = some g := by
            rw [lookupGroup_setGroup_other hkey]; exact h
          rw [ih _ k g h', batchFor_cons]
          simp [hk, hkey]

/-- For a key absent from the groups record, the loop either never touches it
(empty sub-batch) or reads it once and folds the sub-batch into the read
value. -/
theorem storeLoop_lookup_none (adapter : Backend) :
    ∀ (messages : List Message) (st : StoreState) (k : String),
      lookupGroup st.groups k = none →
      lookupGroup (storeLoop adapter messages st).groups k =
        (if batchFor k messages = [] then none
         else some ((batchFor k messages).foldl upsert ((adapter k).getD []))) := by
  intro messages
  induction messages with
  | nil => intro st k h; simpa [storeLoop]
  | cons m rest ih =>
    intro st k h
    cases hk : groupKeyOf m with
    | none =>
      simp only [storeLoop, hk]
      rw [ih st k h, batchFor_cons]
      simp [hk]
    | some key =>
      by_cases hkey : key = k
      · subst hkey
        simp only [storeLoop, hk, h]
        have hset : lookupGroup (setGroup st.groups key (upsert ((adapter key).getD []) m)) key =
            some (upsert ((adapter key).getD []) m) := lookupGroup_setGroup_self _ _ _
        rw [storeLoop_lookup_some adapter rest _ key _ hset, batchFor_cons]
        simp [hk]
      · cases hl : lookupGroup st.groups key with
        | some group =>
          simp only [storeLoop, hk, hl]
          have h' : lookupGroup (setGroup st.groups key (upsert group m)) k = none := by
            rw [lookupGroup_setGroup_other hkey]; exact h
          rw [ih _ k h', batchFor_cons]
          simp [hk, hkey]
        | none =>
          simp only [storeLoop, hk, hl]
          have h' : lookupGroup (setGroup st.groups key (upsert ((adapter key).getD []) m)) k = none := by
            rw [lookupGroup_setGroup_other hkey]; exact h
          rw [ih _ k h', batchFor_cons]
          simp [hk, hkey]

/-- Evaluating the batched writes at a key: the freshly written value when the
key was touched, the prior backend value otherwise. -/
theorem applyWrites_eval :
    ∀ (gs : GroupsMap) (adapter : Backend) (k : String), (keysOf gs).Nodup →
      applyWrites adapter gs k =
        (match lookupGroup gs k with
         | some g => some g
         | none => adapter k) := by
  intro gs
  induction gs with
  | nil => intro adapter k _; simp [applyWrites, lookupGroup]
  | cons p rest ih =>
    obtain ⟨k1, g1⟩ := p
    intro adapter k hnd
    simp only [keysOf_cons, List.nodup_cons] at hnd
    simp only [applyWrites]
    rw [ih _ k hnd.2]
    by_cases hk : k1 = k
    · subst hk
      have : lookupGroup rest k1 = none := lookupGroup_eq_none.mpr hnd.1
      simp [this, lookupGroup]
    · simp only [lookupGroup, hk]
      cases hl : lookupGroup rest k with
      | some g => simp
      | none => simp [Ne.symm hk]

/-- Per-key evaluation of one whole `storeMessages` call: an untouched key is
unchanged; a touched key holds the one read value (or `[]`) with the key's
sub-batch folded in by `upsert`, in arrival order. -/
theorem storeMessages_eval (adapter : Backend) (messages : List Message) (k : String) :
    storeMessages adapter messages k =
      (if batchFor k messages = [] then adapter k
       else some ((batchFor k messages).foldl upsert ((adapter k).getD []))) := by
  unfold storeMessages storeEffects
  have hkeys : keysOf (storeLoop adapter messages ⟨[], []⟩).groups =
      (storeLoop adapter messages ⟨[], []⟩).reads :=
    storeLoop_keys_eq_reads adapter messages ⟨[], []⟩ rfl
  have hnd : ((storeLoop adapter messages ⟨[], []⟩).reads).Nodup :=
    storeLoop_reads_nodup adapter messages ⟨[], []⟩ rfl List.nodup_nil
  have hnd' : (keysOf (storeLoop adapter messages ⟨[], []⟩).groups).Nodup := by
    rw [hkeys]; exact hnd
  rw [applyWrites_eval _ adapter k hnd']
  rw [storeLoop_lookup_none adapter messages ⟨[], []⟩ k rfl]
  by_cases hb : batchFor k messages = [] <;> simp [hb]

/-! ## Idempotence of the per-group fold -/

theorem sameIdentity_congr_right {a b : Message} (h : idOf a = idOf b) (x : Message) :
    sameIdentity x a = sameIdentity x b := by
  by_cases hx : idOf x = idOf a
  · rw [sameIdentity_iff.mpr hx, Eq.symm (sameIdentity_iff.mpr (hx.trans h))]
  · rw [sameIdentity_eq_false.mpr hx, Eq.symm (sameIdentity_eq_false.mpr (h ▸ hx))]

theorem findIndex_congr_idseq {g h : Group} {m : Message}
    (hid : g.map idOf = h.map idOf) :
    findIndex (fun x => sameIdentity x m) g = findIndex (fun x => sameIdentity x m) h := by
  rw [findIndex_eq_idxOfId, findIndex_eq_idxOfId, hid]

theorem map_idOf_set_eq {g : Group} {j : Nat} {y x : Message}
    (hy : g[j]? = some y) (hid : idOf x = idOf y) :
    (g.set j x).map idOf = g.map idOf := by
  rw [List.map_set]
  apply set_of_getElem_eq
  rw [List.getElem?_map, hy]
  simp [hid]

theorem idxOfId_concat_of_none {ids : List (Int × Int)} {k : Int × Int}
    (h : idxOfId ids k = none) : idxOfId (ids ++ [k]) k = some ids.length := by
  induction ids with
  | nil => simp [idxOfId]
  | cons x rest ih =>
    by_cases hx : x = k
    · simp [idxOfId, hx] at h
    · simp [idxOfId, hx] at h
      simp only [List.cons_append, idxOfId, hx, if_false, List.length_cons]
      rw [List.append_eq, ih h]
      rfl

/-- The identity sequence of a fold of upserts extends the initial one. -/
theorem fold_map_idOf_prefix :
    ∀ (ms : List Message) (g : Group),
      ∃ t, (ms.foldl upsert g).map idOf = g.map idOf ++ t := by
  intro ms
  induction ms with
  | nil => intro g; exact ⟨[], by simp⟩
  | cons m rest ih =>
    intro g
    obtain ⟨t, ht⟩ := ih (upsert g m)
    rcases upsert_map_idOf g m with hu | hu
    · exact ⟨t, by simp only [List.foldl_cons, ht, hu]⟩
    · exact ⟨idOf m :: t, by simp only [List.foldl_cons, ht, hu, List.append_assoc,
        List.singleton_append]⟩

/-- A found identity position survives any further upserts. -/
theorem fold_findIndex_stable {g : Group} {m : Message} {p : Nat}
    (h : findIndex (fun x => sameIdentity x m) g = some p) (ms : List Message) :
    findIndex (fun x => sameIdentity x m) (ms.foldl upsert g) = some p := by
  obtain ⟨t, ht⟩ := fold_map_idOf_prefix ms g
  rw [findIndex_eq_idxOfId] at h ⊢
  rw [ht]
  exact idxOfId_append_of_some h

/-- The position of an upserted message holds that message, and is where the
dedup search finds its identity. -/
theorem upsert_findIndex_self (g : Group) (m : Message) :
    ∃ p, findIndex (fun x => sameIdentity x m) (upsert g m) = some p ∧
      (upsert g m)[p]? = some m := by
  cases hf : findIndex (fun x => sameIdentity x m) g with
  | some i =>
    obtain ⟨x, hx, hpx⟩ := findIndex_eq_some hf
    have hid : idOf m = idOf x := (sameIdentity_iff.mp hpx).symm
    have hlt : i < g.length := findIndex_some_lt hf
    refine ⟨i, ?_, ?_⟩
    · rw [upsert_of_found hf, findIndex_congr_idseq (map_idOf_set_eq hx hid), hf]
    · rw [upsert_of_found hf, List.getElem?_set_self hlt]
  | none =>
    refine ⟨g.length, ?_, ?_⟩
    · rw [upsert, hf, findIndex_eq_idxOfId, List.map_append]
      have hnone : idxOfId (g.map idOf) (idOf m) = none := by
        rw [← findIndex_eq_idxOfId, hf]
      simpa using idxOfId_concat_of_none hnone
    · rw [upsert, hf]
      simp [List.getElem?_concat_length]

/-- Folding messages that never collide with `m`'s identity preserves both
`m`'s stored position and its stored value. -/
theorem fold_preserve :
    ∀ (ms : List Message) (g : Group) (p : Nat) (m : Message),
      findIndex (fun x => sameIdentity x m) g = some p →
      g[p]? = some m →
      (∀ m1 ∈ ms, idOf m1 ≠ idOf m) →
      findIndex (fun x => sameIdentity x m) (ms.foldl upsert g) = some p ∧
        (ms.foldl upsert g)[p]? = some m := by
  intro ms
  induction ms with
  | nil => intro g p m hf hv _; exact ⟨hf, hv⟩
  | cons m1 rest ih =>
    intro g p m hf hv hne
    have hne1 : idOf m1 ≠ idOf m := hne m1 (List.mem_cons_self _ _)
    have hner : ∀ x ∈ rest, idOf x ≠ idOf m := fun x hx => hne x (List.mem_cons_of_mem _ hx)
    simp only [List.foldl_cons]
    cases hf1 : findIndex (fun x => sameIdentity x m1) g with
    | some j =>
      obtain ⟨y, hy, hpy⟩ := findIndex_eq_some hf1
      have hidy : idOf y = idOf m1 := sameIdentity_iff.mp hpy
      have hjp : j ≠ p := by
        intro hjp
        subst hjp
        rw [hy] at hv
        cases hv
        exact hne1 (hidy ▸ rfl)
      refine ih _ p m ?_ ?_ hner
      · rw [upsert_of_found hf1,
          findIndex_congr_idseq (map_idOf_set_eq hy (hidy ▸ rfl)), hf]
      · rw [upsert_of_found hf1, List.getElem?_set_ne hjp, hv]
    | none =>
      have hlt : p < g.length := findIndex_some_lt hf
      refine ih _ p m ?_ ?_ hner
      · rw [upsert, hf1, findIndex_eq_idxOfId, List.map_append]
        rw [findIndex_eq_idxOfId] at hf
        exact idxOfId_append_of_some hf
      · rw [upsert, hf1, List.getElem?_append_left hlt, hv]

/-- Overwriting the stored slot of an identity that the remaining batch will
overwrite anyway does not change the fold's result. -/
theorem fold_congr_set :
    ∀ (ms : List Message) (g : Group) (p : Nat) (m : Message),
      findIndex (fun x => sameIdentity x m) g = some p →
      (∃ m1 ∈ ms, idOf m1 = idOf m) →
      ms.foldl upsert (g.set p m) = ms.foldl upsert g := by
  intro ms
  induction ms with
  | nil => intro g p m _ hw; simp at hw
  | cons m1 rest ih =>
    intro g p m hf hw
    obtain ⟨x, hx, hpx⟩ := findIndex_eq_some hf
    have hidx : idOf m = idOf x := (sameIdentity_iff.mp hpx).symm
    have hseq : (g.set p m).map idOf = g.map idOf := map_idOf_set_eq hx hidx
    simp only [List.foldl_cons]
    by_cases hid1 : idOf m1 = idOf m
    · -- the very next message collides: both sides overwrite the same slot
      have hpred : (fun z => sameIdentity z m1) = (fun z => sameIdentity z m) :=
        funext (sameIdentity_congr_right hid1)
      have hf1 : findIndex (fun z => sameIdentity z m1) g = some p := by
        rw [hpred]; exact hf
      have hf1' : findIndex (fun z => sameIdentity z m1) (g.set p m) = some p := by
        rw [findIndex_congr_idseq hseq]; exact hf1
      rw [upsert_of_found hf1', upsert_of_found hf1, List.set_set]
    · obtain ⟨m2, hm2, hid2⟩ := hw
      have hm2r : m2 ∈ rest := by
        rcases List.mem_cons.mp hm2 with h' | h'
        · exact absurd (h' ▸ hid2) hid1
        · exact h'
      cases hf1 : findIndex (fun z => sameIdentity z m1) g with
      | some j =>
        obtain ⟨y, hy, hpy⟩ := findIndex_eq_some hf1
        have hidy : idOf y = idOf m1 := sameIdentity_iff.mp hpy
        have hjp : j ≠ p := by
          intro hjp
          subst hjp
          rw [hy] at hx
          cases hx
          exact hid1 (by rw [← hidy, ← hidx])
        have hf1' : findIndex (fun z => sameIdentity z m1) (g.set p m) = some j := by
          rw [findIndex_congr_idseq hseq]; exact hf1
        rw [upsert_of_found hf1', upsert_of_found hf1,
          List.set_comm _ _ _ (Ne.symm hjp)]
        have hfj : findIndex (fun z => sameIdentity z m) (g.set j m1) = some p := by
          rw [findIndex_congr_idseq (map_idOf_set_eq hy hidy.symm)]
          exact hf
        exact ih (g.set j m1) p m hfj ⟨m2, hm2r, hid2⟩
      | none =>
        have hlt : p < g.length := findIndex_some_lt hf
        have hf1' : findIndex (fun z => sameIdentity z m1) (g.set p m) = none := by
          rw [findIndex_congr_idseq hseq]; exact hf1
        rw [upsert, hf1', upsert, hf1]
        have happ : g.set p m ++ [m1] = (g ++ [m1]).set p m := by
          rw [List.set_append]
          simp [hlt]
        rw [happ]
        have hfapp : findIndex (fun z => sameIdentity z m) (g ++ [m1]) = some p := by
          rw [findIndex_eq_idxOfId, List.map_append]
          rw [findIndex_eq_idxOfId] at hf
          exact idxOfId_append_of_some hf
        exact ih (g ++ [m1]) p m hfapp ⟨m2, hm2r, hid2⟩

/-- Re-folding the same message batch over its own result is a no-op: the
dedup-by-composite-identity upsert makes the per-group fold idempotent. -/
theorem foldl_upsert_idem :
    ∀ (ms : List Message) (g : Group),
      ms.foldl upsert (ms.foldl upsert g) = ms.foldl upsert g := by
  intro ms
  induction ms with
  | nil => intro g; rfl
  | cons m rest ih =>
    intro g
    simp only [List.foldl_cons]
    obtain ⟨p, hp, hvp⟩ := upsert_findIndex_self g m
    have hG : findIndex (fun x => sameIdentity x m) (rest.foldl upsert (upsert g m)) = some p :=
      fold_findIndex_stable hp rest
    by_cases hw : ∃ m1 ∈ rest, idOf m1 = idOf m
    · rw [upsert_of_found hG, fold_congr_set rest _ p m hG hw, ih (upsert g m)]
    · push_neg at hw
      obtain ⟨hG', hvG⟩ := fold_preserve rest (upsert g m) p m hp hvp hw
      rw [upsert_of_found hG', set_of_getElem_eq _ _ _ hvG, ih (upsert g m)]

/-! ## Preservation of identity-uniqueness -/

/-- An upsert never creates two entries with the same composite identity. -/
theorem upsert_nodup {g : Group} {m : Message}
    (h : (g.map idOf).Nodup) : ((upsert g m).map idOf).Nodup := by
  cases hf : findIndex (fun x => sameIdentity x m) g with
  | some i =>
    obtain ⟨x, hx, hpx⟩ := findIndex_eq_some hf
    have hid : idOf m = idOf x := (sameIdentity_iff.mp hpx).symm
    rw [upsert_of_found hf, map_idOf_set_eq hx hid]
    exact h
  | none =>
    rw [upsert, hf, List.map_append]
    have habs : idOf m ∉ g.map idOf := by
      intro hmem
      obtain ⟨y, hy, hidy⟩ := List.mem_map.mp hmem
      have := findIndex_eq_none.mp hf y hy
      rw [sameIdentity_eq_false] at this
      exact this hidy
    simp [List.nodup_append, h, habs]

/-- Folding a batch into an identity-unique group keeps it identity-unique. -/
theorem fold_nodup :
    ∀ (ms : List Message) (g : Group),
      (g.map idOf).Nodup → ((ms.foldl upsert g).map idOf).Nodup := by
  intro ms
  induction ms with
  | nil => intro g h; exact h
  | cons m rest ih =>
    intro g h
    simp only [List.foldl_cons]
    exact ih _ (upsert_nodup h)

/-! ## The fallible loop against the infallible one -/

/-- When no read that the batch performs fails, the fallible loop succeeds
and agrees with the infallible loop. -/
theorem storeLoopE_ok (base : Backend) (failing : String → Bool) :
    ∀ (messages : List Message) (st : StoreState),
      (∀ k ∈ (storeLoop base messages st).reads, failing k = false) →
      storeLoopE (adapterOf base failing) messages st =
        Except.ok (storeLoop base messages st) := by
  intro messages
  induction messages with
  | nil => intro st _; rfl
  | cons m rest ih =>
    intro st h
    cases hk : groupKeyOf m with
    | none =>
      simp only [storeLoop, hk] at h ⊢
      simp only [storeLoopE, hk]
      exact ih st h
    | some key =>
      cases hl : lookupGroup st.groups key with
      | some group =>
        simp only [storeLoop, hk, hl] at h ⊢
        simp only [storeLoopE, hk, hl]
        exact ih _ h
      | none =>
        simp only [storeLoop, hk, hl] at h ⊢
        simp only [storeLoopE, hk, hl]
        have hmem : key ∈ (storeLoop base rest
            { groups := setGroup st.groups key (upsert ((base key).getD []) m),
              reads := st.reads ++ [key] }).reads :=
          storeLoop_reads_mono base rest _ key (by simp)
        have hfk : failing key = false := h key hmem
        simp only [adapterOf, hfk, Bool.false_eq_true, if_false]
        exact ih _ h

/-- When some read that the batch performs fails (and none of the already
logged ones did), the fallible loop aborts with an error. -/
theorem storeLoopE_error (base : Backend) (failing : String → Bool) :
    ∀ (messages : List Message) (st : StoreState),
      (∀ k ∈ st.reads, failing k = false) →
      (∃ k ∈ (storeLoop base messages st).reads, failing k = true) →
      ∃ e, storeLoopE (adapterOf base failing) messages st = Except.error e := by
  intro messages
  induction messages with
  | nil =>
    intro st hclean hfail
    obtain ⟨k, hk, hfk⟩ := hfail
    simp only [storeLoop] at hk
    rw [hclean k hk] at hfk
    cases hfk
  | cons m rest ih =>
    intro st hclean hfail
    cases hk : groupKeyOf m with
    | none =>
      simp only [storeLoop, hk] at hfail
      simp only [storeLoopE, hk]
      exact ih st hclean hfail
    | some key =>
      cases hl : lookupGroup st.groups key with
      | some group =>
        simp only [storeLoop, hk, hl] at hfail
        simp only [storeLoopE, hk, hl]
        exact ih _ hclean hfail
      | none =>
        by_cases hfk : failing key = true
        · refine ⟨"read failed", ?_⟩
          simp only [storeLoopE, hk, hl, adapterOf, hfk, if_true]
        · simp only [Bool.not_eq_true] at hfk
          simp only [storeLoop, hk, hl] at hfail
          simp only [storeLoopE, hk, hl, adapterOf, hfk, Bool.false_eq_true, if_false]
          refine ih _ ?_ hfail
          intro k' hk'
          simp only [List.mem_append, List.mem_singleton] at hk'
          rcases hk' with hk' | hk'
          · exact hclean k' hk'
          · subst hk'; exact hfk

/-- A batch with no (truthy) group keys leaves the loop state untouched. -/
theorem storeLoop_groupless (adapter : Backend) :
    ∀ (messages : List Message) (st : StoreState),
      (∀ m ∈ messages, groupKeyOf m = none) →
      storeLoop adapter messages st = st := by
  intro messages
  induction messages with
  | nil => intro st _; rfl
  | cons m rest ih =>
    intro st h
    have hm : groupKeyOf m = none := h m (List.mem_cons_self _ _)
    simp only [storeLoop, hm]
    exact ih st (fun m' hm' => h m' (List.mem_cons_of_mem _ hm'))

/-! ## Properties of the media converter -/

/-- Shape of every projected descriptor: visual items (photo/video, including
re-typed animations) carry the options' placement and spoiler flags; document
and audio items carry neither. -/
theorem projectMessage_item_shape {options : ToInputMediaOptions} {i : Nat} {msg : Message}
    {items : List InputMedia} (h : projectMessage options i msg = some items) :
    ∀ it ∈ items,
      ((it.mtype = "photo" ∨ it.mtype = "video") ∧
        it.show_caption_above_media = options.show_caption_above_media ∧
        it.has_spoiler = options.has_spoiler) ∨
      ((it.mtype = "document" ∨ it.mtype = "audio") ∧
        it.show_caption_above_media = none ∧ it.has_spoiler = none) := by
  intro it hit
  unfold projectMessage at h
  cases hph : msg.photo with
  | some ps =>
    cases hlast : ps.getLast? with
    | some p => simp [hph, hlast] at h; subst h; simp at hit; subst hit; simp
    | none => simp [hph, hlast] at h
  | none =>
  cases hv : msg.video with
  | some v => simp [hph, hv] at h; subst h; simp at hit; subst hit; simp
  | none =>
  cases ha : msg.animation with
  | some a => simp [hph, hv, ha] at h; subst h; simp at hit; subst hit; simp
  | none =>
  cases hd : msg.document with
  | some d => simp [hph, hv, ha, hd] at h; subst h; simp at hit; subst hit; simp
  | none =>
  cases hau : msg.audio with
  | some a => simp [hph, hv, ha, hd, hau] at h; subst h; simp at hit; subst hit; simp
  | none => simp [hph, hv, ha, hd, hau] at h; subst h; simp at hit

/-- Caption routing of every projected descriptor: with an override in force
(index 0 and `options.caption` set) the caption fields come from the options;
otherwise they are copied from the message (`parse_mode` stays unset). -/
theorem projectMessage_caption_fields {options : ToInputMediaOptions} {i : Nat} {msg : Message}
    {items : List InputMedia} (h : projectMessage options i msg = some items) :
    ∀ it ∈ items,
      (options.caption.isSome = true ∧ i = 0 →
        it.caption = options.caption ∧ it.parse_mode = options.parse_mode ∧
          it.caption_entities = options.caption_entities) ∧
      (options.caption = none ∨ i ≠ 0 →
        it.caption = msg.caption ∧ it.parse_mode = none ∧
          it.caption_entities = msg.caption_entities) := by
  intro it hit
  have hcases : (options.caption.isSome && i == 0) = true ∨
      (options.caption.isSome && i == 0) = false := by
    cases options.caption.isSome && i == 0 <;> simp
  unfold projectMessage at h
  constructor
  · rintro ⟨hc, hi⟩
    subst hi
    simp only [hc, Nat.zero_eq, beq_self_eq_true, Bool.and_self, if_true] at h
    cases hph : msg.photo with
    | some ps =>
      cases hlast : ps.getLast? with
      | some p => simp [hph, hlast] at h; subst h; simp at hit; subst hit; simp
      | none => simp [hph, hlast] at h
    | none =>
    cases hv : msg.video with
    | some v => simp [hph, hv] at h; subst h; simp at hit; subst hit; simp
    | none =>
    cases ha : msg.animation with
    | some a => simp [hph, hv, ha] at h; subst h; simp at hit; subst hit; simp
    | none =>
    cases hd : msg.document with
    | some d => simp [hph, hv, ha, hd] at h; subst h; simp at hit; subst hit; simp
    | none =>
    cases hau : msg.audio with
    | some a => simp [hph, hv, ha, hd, hau] at h; subst h; simp at hit; subst hit; simp
    | none => simp [hph, hv, ha, hd, hau] at h; subst h; simp at hit
  · intro hno
    have hov : (options.caption.isSome && i == 0) = false := by
      rcases hno with hno | hno
      · simp [hno]
      · simp [hno]
    simp only [hov, if_false] at h
    cases hph : msg.photo with
    | some ps =>
      cases hlast : ps.getLast? with
      | some p => simp [hph, hlast] at h; subst h; simp at hit; subst hit; simp
      | none => simp [hph, hlast] at h
    | none =>
    cases hv : msg.video with
    | some v => simp [hph, hv] at h; subst h; simp at hit; subst hit; simp
    | none =>
    cases ha : msg.animation with
    | some a => simp [hph, hv, ha] at h; subst h; simp at hit; subst hit; simp
    | none =>
    cases hd : msg.document with
    | some d => simp [hph, hv, ha, hd] at h; subst h; simp at hit; subst hit; simp
    | none =>
    cases hau : msg.audio with
    | some a => simp [hph, hv, ha, hd, hau] at h; subst h; simp at hit; subst hit; simp
    | none => simp [hph, hv, ha, hd, hau] at h; subst h; simp at hit

/-- One message contributes at most one descriptor. -/
theorem projectMessage_length {options : ToInputMediaOptions} {i : Nat} {msg : Message}
    {items : List InputMedia} (h : projectMessage options i msg = some items) :
    items.length ≤ 1 := by
  unfold projectMessage at h
  cases hph : msg.photo with
  | some ps =>
    cases hlast : ps.getLast? with
    | some p => simp [hph, hlast] at h; subst h; simp
    | none => simp [hph, hlast] at h
  | none =>
  cases hv : msg.video with
  | some v => simp [hph, hv] at h; subst h; simp
  | none =>
  cases ha : msg.animation with
  | some a => simp [hph, hv, ha] at h; subst h; simp
  | none =>
  cases hd : msg.document with
  | some d => simp [hph, hv, ha, hd] at h; subst h; simp
  | none =>
  cases hau : msg.audio with
  | some a => simp [hph, hv, ha, hd, hau] at h; subst h; simp
  | none => simp [hph, hv, ha, hd, hau] at h; subst h; simp

/-- A message whose photo payloads are nonempty always projects, to at most
one descriptor. -/
theorem projectMessage_total {options : ToInputMediaOptions} {i : Nat} {msg : Message}
    (hps : ∀ ps, msg.photo = some ps → ps ≠ []) :
    ∃ items, projectMessage options i msg = some items ∧ items.length ≤ 1 := by
  have hne : projectMessage options i msg ≠ none := by
    unfold projectMessage
    cases hph : msg.photo with
    | some ps =>
      cases hlast : ps.getLast? with
      | some p => simp [hlast]
      | none => exact absurd (List.getLast?_eq_none_iff.mp hlast) (hps ps hph)
    | none =>
    cases msg.video with
    | some v => simp
    | none =>
    cases msg.animation with
    | some a => simp
    | none =>
    cases msg.document with
    | some d => simp
    | none =>
    cases msg.audio with
    | some a => simp
    | none => simp
  obtain ⟨items, hitems⟩ := Option.ne_none_iff_exists'.mp hne
  exact ⟨items, hitems, projectMessage_length hitems⟩

/-- Lifting a per-descriptor property through the indexed `flatMap`. -/
theorem projectFrom_forall {options : ToInputMediaOptions} {P : InputMedia → Prop}
    (hP : ∀ (i : Nat) (msg : Message) (items : List InputMedia),
      projectMessage options i msg = some items → ∀ it ∈ items, P it) :
    ∀ (messages : List Message) (i : Nat) (out : List InputMedia),
      projectFrom options i messages = some out → ∀ it ∈ out, P it := by
  intro messages
  induction messages with
  | nil => intro i out h it hit; simp [projectFrom] at h; subst h; simp at hit
  | cons msg rest ih =>
    intro i out h it hit
    unfold projectFrom at h
    cases hm : projectMessage options i msg with
    | none => rw [hm] at h; cases h
    | some items =>
      cases hr : projectFrom options (i + 1) rest with
      | none => rw [hm, hr] at h; cases h
      | some out' =>
        rw [hm, hr] at h
        cases h
        rcases List.mem_append.mp hit with hit' | hit'
        · exact hP i msg items hm it hit'
        · exact ih (i + 1) out' hr it hit'

/-- Totality and length bound of the conversion on well-formed inputs. -/
theorem projectFrom_total {options : ToInputMediaOptions} :
    ∀ (messages : List Message) (i : Nat),
      (∀ msg ∈ messages, ∀ ps, msg.photo = some ps → ps ≠ []) →
      ∃ out, projectFrom options i messages = some out ∧ out.length ≤ messages.length := by
  intro messages
  induction messages with
  | nil => intro i _; exact ⟨[], rfl, by simp⟩
  | cons msg rest ih =>
    intro i h
    obtain ⟨items, hm, hlen⟩ :=
      @projectMessage_total options i msg (h msg (List.mem_cons_self _ _))
    obtain ⟨out, hr, hlen'⟩ := ih (i + 1) (fun m' hm' => h m' (List.mem_cons_of_mem _ hm'))
    refine ⟨items ++ out, ?_, ?_⟩
    · unfold projectFrom; rw [hm, hr]
    · simp only [List.length_append, List.length_cons]
      omega

/-- Without an override in force, the projection is insensitive to the index
and to the caption-override option fields. -/
theorem projectMessage_congr_no_override {options options' : ToInputMediaOptions}
    (i i' : Nat) (hshow : options.show_caption_above_media = options'.show_caption_above_media)
    (hspoiler : options.has_spoiler = options'.has_spoiler)
    (hov : (options.caption.isSome && i == 0) = false)
    (hov' : (options'.caption.isSome && i' == 0) = false) (msg : Message) :
    projectMessage options i msg = projectMessage options' i' msg := by
  unfold projectMessage
  rw [hov, hov', hshow, hspoiler]
  simp

/-- From index 1 on, the caption-override option fields are inert. -/
theorem projectFrom_congr_pos (options options' : ToInputMediaOptions)
    (hshow : options.show_caption_above_media = options'.show_caption_above_media)
    (hspoiler : options.has_spoiler = options'.has_spoiler) :
    ∀ (messages : List Message) (i i' : Nat), i ≠ 0 → i' ≠ 0 →
      projectFrom options i messages = projectFrom options' i' messages := by
  intro messages
  induction messages with
  | nil => intro i i' _ _; rfl
  | cons msg rest ih =>
    intro i i' hi hi'
    unfold projectFrom
    rw [projectMessage_congr_no_override i i' hshow hspoiler
      (by simp [hi]) (by simp [hi']) msg]
    rw [ih (i + 1) (i' + 1) (Nat.succ_ne_zero i) (Nat.succ_ne_zero i')]

/-! ## Concrete fixtures used by witnesses and counterexamples -/

/-- A minimal message with the given identity and group key. -/
def mkMsg (mid cid : Int) (g : Option String) : Message :=
  { message_id := mid, chat := ⟨cid⟩, media_group_id := g }

/-- A minimal message with an extra payload (`text`) to distinguish edits. -/
def mkMsgT (mid cid : Int) (g : Option String) (t : String) : Message :=
  { message_id := mid, chat := ⟨cid⟩, media_group_id := g, text := some t }

/-- A two-variant photo message with a caption. -/
def photoMsgA : Message :=
  { message_id := 1, chat := ⟨100⟩, photo := some [⟨"pA1"⟩, ⟨"pA2"⟩], caption := some "capA" }

/-- A one-variant photo message with a caption. -/
def photoMsgB : Message :=
  { message_id := 2, chat := ⟨100⟩, photo := some [⟨"pB1"⟩], caption := some "capB" }

/-- A plain text message: no recognized media payload. -/
def textMsg : Message :=
  { message_id := 3, chat := ⟨100⟩, text := some "just text" }

/-- A photo message with an empty variant list. -/
def emptyPhotoMsg : Message :=
  { message_id := 4, chat := ⟨100⟩, photo := some [] }

/-- Options selecting caption placement above the media. -/
def showOpts : ToInputMediaOptions :=
  { show_caption_above_media := some true }

/-- Options overriding the first item's caption. -/
def ovOpts : ToInputMediaOptions :=
  { caption := some "NEW" }

/-- A nonempty `media_group_id` is the message's group key. -/
theorem groupKeyOf_eq {m : Message} {k : String}
    (h : m.media_group_id = some k) (hk : k ≠ "") : groupKeyOf m = some k := by
  simp [groupKeyOf, h, hk]

/-! ## Claims -/

/-- C1: for every input batch, `storeMessages` performs at most one backend
read and at most one backend write per distinct group key occurring in the
batch (reads are duplicate-free and drawn from the batch's keys; the written
keys are exactly the read keys); messages without a group key are never
persisted (every stored entry came from the key's single read or carries the
key); a batch with no group keys performs zero reads and zero writes and
leaves the backend untouched. -/
theorem storeMessages_batching (adapter : Backend) (messages : List Message) :
    (storeEffects adapter messages).reads.Nodup ∧
    keysOf (storeEffects adapter messages).groups = (storeEffects adapter messages).reads ∧
    (∀ k ∈ (storeEffects adapter messages).reads, ∃ m ∈ messages, groupKeyOf m = some k) ∧
    (∀ p ∈ (storeEffects adapter messages).groups, ∀ x ∈ p.2,
      x ∈ (adapter p.1).getD [] ∨ groupKeyOf x = some p.1) ∧
    ((∀ m ∈ messages, groupKeyOf m = none) →
      (storeEffects adapter messages).reads = [] ∧
      (storeEffects adapter messages).groups = [] ∧
      storeMessages adapter messages = adapter) := by
  refine ⟨?_, ?_, ?_, ?_, ?_⟩
  · exact storeLoop_reads_nodup adapter messages ⟨[], []⟩ rfl List.nodup_nil
  · exact storeLoop_keys_eq_reads adapter messages ⟨[], []⟩ rfl
  · intro k hk
    rcases storeLoop_reads_from_batch adapter messages ⟨[], []⟩ k hk with h | h
    · simp at h
    · exact h
  · exact storeLoop_provenance adapter messages ⟨[], []⟩ (by simp)
  · intro h
    have hloop : storeLoop adapter messages ⟨[], []⟩ = ⟨[], []⟩ :=
      storeLoop_groupless adapter messages ⟨[], []⟩ h
    refine ⟨?_, ?_, ?_⟩
    · show (storeLoop adapter messages ⟨[], []⟩).reads = []
      rw [hloop]
    · show (storeLoop adapter messages ⟨[], []⟩).groups = []
      rw [hloop]
    · unfold storeMessages storeEffects
      rw [hloop]
      rfl

/-- C1 witness: a batch of two groupless messages issues zero reads and zero
writes, and a batch of three messages over two keys issues exactly the reads
`["g1", "g2"]`. -/
theorem storeMessages_batching_witness :
    (storeEffects (fun _ => none) [mkMsg 1 100 none, mkMsg 2 100 none]).reads = [] ∧
    (storeEffects (fun _ => none) [mkMsg 1 100 none, mkMsg 2 100 none]).groups = [] := by
  have h := (storeMessages_batching (fun _ => none)
    [mkMsg 1 100 none, mkMsg 2 100 none]).2.2.2.2 (by decide)
  exact ⟨h.1, h.2.1⟩

/-- C2: every group stored in a backend reachable from the empty backend is
free of duplicate composite identities `(message_id, chat.id)`; and the dedup
key is exactly that pair — two messages with equal `message_id` but different
`chat.id` are both retained, so the group has length 2. -/
theorem stored_groups_identity_unique :
    (∀ adapter, Reachable adapter → ∀ k g, adapter k = some g → (g.map idOf).Nodup) ∧
    storeMessages (fun _ => none) [mkMsg 1 100 (some "g"), mkMsg 1 200 (some "g")] "g" =
      some [mkMsg 1 100 (some "g"), mkMsg 1 200 (some "g")] := by
  constructor
  · intro adapter hr
    induction hr with
    | empty => intro k g h; cases h
    | step be msgs _ ih =>
      intro k g h
      rw [storeMessages_eval] at h
      by_cases hb : batchFor k msgs = []
      · rw [if_pos hb] at h
        exact ih k g h
      · rw [if_neg hb] at h
        cases h
        apply fold_nodup
        cases hbe : be k with
        | none => simp
        | some g0 => simpa using ih k g0 hbe
  · decide

/-- C2 witness: the concrete reachable two-chat group is identity-unique. -/
theorem stored_groups_identity_unique_witness :
    (([mkMsg 1 100 (some "g"), mkMsg 1 200 (some "g")] : Group).map idOf).Nodup :=
  stored_groups_identity_unique.1
    (storeMessages (fun _ => none) [mkMsg 1 100 (some "g"), mkMsg 1 200 (some "g")])
    (Reachable.step _ _ Reachable.empty) "g"
    [mkMsg 1 100 (some "g"), mkMsg 1 200 (some "g")]
    (by decide)

/-- C3: arrival-order processing — an absent composite identity is appended,
a present one is overwritten at its existing position (all other positions
and the length unchanged); storing `A, B` and then an edited `A'` with `A`'s
identity yields `[A', B]`, not `[B, A']`; within one batch the later of two
same-identity duplicates wins. -/
theorem storeMessages_order_preserving :
    (∀ (g : Group) (m : Message), (∀ x ∈ g, idOf x ≠ idOf m) → upsert g m = g ++ [m]) ∧
    (∀ (g : Group) (m : Message) (i : Nat),
      findIndex (fun x => sameIdentity x m) g = some i →
      (upsert g m)[i]? = some m ∧ (upsert g m).length = g.length ∧
        ∀ j, j ≠ i → (upsert g m)[j]? = g[j]?) ∧
    (∀ (A B A' : Message) (k : String), k ≠ "" →
      A.media_group_id = some k → B.media_group_id = some k → A'.media_group_id = some k →
      idOf A' = idOf A → idOf B ≠ idOf A →
      storeMessages (storeMessages (fun _ => none) [A, B]) [A'] k = some [A', B]) ∧
    (∀ (m m' : Message) (k : String), k ≠ "" →
      m.media_group_id = some k → m'.media_group_id = some k → idOf m' = idOf m →
      storeMessages (fun _ => none) [m, m'] k = some [m']) := by
  refine ⟨?_, ?_, ?_, ?_⟩
  · exact fun g m h => upsert_of_absent h
  · exact fun g m i h => upsert_set_facts h
  · intro A B A' k hk hA hB hA' hidA hidB
    have hkA : groupKeyOf A = some k := groupKeyOf_eq hA hk
    have hkB : groupKeyOf B = some k := groupKeyOf_eq hB hk
    have hkA' : groupKeyOf A' = some k := groupKeyOf_eq hA' hk
    have hb1 : batchFor k [A, B] = [A, B] := by
      rw [batchFor_cons, if_pos hkA, batchFor_cons, if_pos hkB, batchFor_nil]
    have hAB : storeMessages (fun _ => none) [A, B] k = some [A, B] := by
      rw [storeMessages_eval, hb1, if_neg (by simp)]
      have h1 : upsert [] A = [A] := rfl
      have h2 : upsert [A] B = [A, B] := by
        have : findIndex (fun x => sameIdentity x B) [A] = none := by
          simp [findIndex, sameIdentity_eq_false.mpr (fun hc => hidB hc.symm)]
        rw [upsert, this]
        rfl
      simp [h1, h2]
    rw [storeMessages_eval]
    have hb2 : batchFor k [A'] = [A'] := by
      rw [batchFor_cons, if_pos hkA', batchFor_nil]
    rw [hb2, if_neg (by simp), hAB]
    have hfind : findIndex (fun x => sameIdentity x A') [A, B] = some 0 := by
      simp [findIndex, sameIdentity_iff.mpr hidA.symm]
    simp [upsert, hfind]
  · intro m m' k hk hm hm' hid
    have hkm : groupKeyOf m = some k := groupKeyOf_eq hm hk
    have hkm' : groupKeyOf m' = some k := groupKeyOf_eq hm' hk
    rw [storeMessages_eval]
    have hb : batchFor k [m, m'] = [m, m'] := by
      rw [batchFor_cons, if_pos hkm, batchFor_cons, if_pos hkm', batchFor_nil]
    rw [hb, if_neg (by simp)]
    have h1 : upsert [] m = [m] := rfl
    have h2 : upsert [m] m' = [m'] := by
      have : findIndex (fun x => sameIdentity x m') [m] = some 0 := by
        simp [findIndex, sameIdentity_iff.mpr hid.symm]
      rw [upsert, this]
      rfl
    simp [h1, h2]

/-- C3 witness: the edit scenario at concrete messages yields `[A', B]`, and
the within-batch duplicate scenario keeps only the later message. -/
theorem storeMessages_order_preserving_witness :
    storeMessages (storeMessages (fun _ => none)
        [mkMsgT 1 100 (some "g") "A", mkMsgT 2 100 (some "g") "B"])
        [mkMsgT 1 100 (some "g") "Anew"] "g" =
      some [mkMsgT 1 100 (some "g") "Anew", mkMsgT 2 100 (some "g") "B"] ∧
    storeMessages (fun _ => none)
        [mkMsgT 1 100 (some "g") "old", mkMsgT 1 100 (some "g") "new"] "g" =
      some [mkMsgT 1 100 (some "g") "new"] := by
  constructor
  · exact storeMessages_order_preserving.2.2.1
      (mkMsgT 1 100 (some "g") "A") (mkMsgT 2 100 (some "g") "B")
      (mkMsgT 1 100 (some "g") "Anew") "g"
      (by decide) (by decide) (by decide) (by decide) (by decide) (by decide)
  · exact storeMessages_order_preserving.2.2.2
      (mkMsgT 1 100 (some "g") "old") (mkMsgT 1 100 (some "g") "new") "g"
      (by decide) (by decide) (by decide) (by decide)

/-- C5: the result classifier is a total pure function of (call name, raw
result): `sendMediaGroup` returns an array result verbatim and anything else
yields the empty list; `forwardMessage` wraps any result unconditionally;
the three `editMessage*` methods yield a one-element list for a non-null
object and the empty list for a non-object (such as the boolean `true`);
a call name not in the table yields the empty list. -/
theorem classifier_rules :
    (∀ xs, extractCandidates "sendMediaGroup" (JsValue.arrv xs) = xs) ∧
    (∀ r, isJsArray r = false → extractCandidates "sendMediaGroup" r = []) ∧
    (∀ r, extractCandidates "forwardMessage" r = [r]) ∧
    (∀ r, isJsObject r = true →
      extractCandidates "editMessageMedia" r = [r] ∧
      extractCandidates "editMessageCaption" r = [r] ∧
      extractCandidates "editMessageReplyMarkup" r = [r]) ∧
    (∀ r, isJsObject r = false →
      extractCandidates "editMessageMedia" r = [] ∧
      extractCandidates "editMessageCaption" r = [] ∧
      extractCandidates "editMessageReplyMarkup" r = []) ∧
    (∀ b, extractCandidates "editMessageMedia" (JsValue.boolv b) = []) ∧
    (∀ method r, method ∉ MEDIA_GROUP_METHODS.map Prod.fst →
      extractCandidates method r = []) := by
  have hlook : ∀ method r, method ∉ MEDIA_GROUP_METHODS.map Prod.fst →
      extractCandidates method r = [] := by
    intro method r h
    have hfind : MEDIA_GROUP_METHODS.find? (fun p => p.1 = method) = none := by
      rw [List.find?_eq_none]
      intro p hp
      simp only [decide_eq_true_eq]
      intro hc
      exact h (List.mem_map.mpr ⟨p, hp, hc⟩)
    simp [extractCandidates, lookupMethod, hfind]
  refine ⟨?_, ?_, ?_, ?_, ?_, ?_, hlook⟩
  · intro xs
    simp [extractCandidates, lookupMethod, MEDIA_GROUP_METHODS, sendMediaGroupRule]
  · intro r h
    cases r <;>
      simp_all [extractCandidates, lookupMethod, MEDIA_GROUP_METHODS,
        sendMediaGroupRule, isJsArray]
  · intro r
    simp [extractCandidates, lookupMethod, MEDIA_GROUP_METHODS, toArray]
  · intro r h
    refine ⟨?_, ?_, ?_⟩ <;>
      simp [extractCandidates, lookupMethod, MEDIA_GROUP_METHODS, toArrayIfObject, h]
  · intro r h
    refine ⟨?_, ?_, ?_⟩ <;>
      simp [extractCandidates, lookupMethod, MEDIA_GROUP_METHODS, toArrayIfObject, h]
  · intro b
    simp [extractCandidates, lookupMethod, MEDIA_GROUP_METHODS, toArrayIfObject, isJsObject]

/-- C5 witness: the classifier at concrete calls — an array is returned
verbatim for the batch-send method, a boolean edit acknowledgement stores
nothing, and an unregistered method yields the empty list. -/
theorem classifier_rules_witness :
    extractCandidates "sendMediaGroup" (JsValue.arrv [JsValue.objv (mkMsg 1 100 none)]) =
      [JsValue.objv (mkMsg 1 100 none)] ∧
    extractCandidates "editMessageMedia" (JsValue.boolv true) = [] ∧
    extractCandidates "someMethod" (JsValue.objv (mkMsg 1 100 none)) = [] := by
  refine ⟨?_, ?_, ?_⟩
  · exact classifier_rules.1 [JsValue.objv (mkMsg 1 100 none)]
  · exact classifier_rules.2.2.2.2.2.1 true
  · exact classifier_rules.2.2.2.2.2.2 "someMethod" (JsValue.objv (mkMsg 1 100 none))
      (by decide)

/-- C8: `storeMessages` is idempotent — running the same batch twice yields
the same backend (hence the same length and content for every touched group)
as running it once. -/
theorem storeMessages_idempotent (adapter : Backend) (messages : List Message) :
    storeMessages (storeMessages adapter messages) messages =
      storeMessages adapter messages := by
  funext k
  by_cases hb : batchFor k messages = []
  · rw [storeMessages_eval, if_pos hb]
  · rw [storeMessages_eval, if_neg hb]
    rw [storeMessages_eval, if_neg hb]
    simp only [Option.getD_some]
    rw [foldl_upsert_idem]

/-- C9: all backend reads happen before any backend write — the written keys
are exactly the read keys; the fallible loop agrees with the infallible one
when no read fails; and when any read performed by the batch rejects, the
whole call errors before a single write is issued, leaving the backend in its
prior state. -/
theorem storeMessages_read_failure_atomicity (base : Backend) (failing : String → Bool)
    (messages : List Message) :
    storeLoopE (adapterOf base (fun _ => false)) messages ⟨[], []⟩ =
      Except.ok (storeEffects base messages) ∧
    keysOf (storeEffects base messages).groups = (storeEffects base messages).reads ∧
    ((∃ k ∈ (storeEffects base messages).reads, failing k = true) →
      (∃ e, storeLoopE (adapterOf base failing) messages ⟨[], []⟩ = Except.error e) ∧
      storeMessagesE (adapterOf base failing) base messages = base) := by
  refine ⟨?_, ?_, ?_⟩
  · exact storeLoopE_ok base (fun _ => false) messages ⟨[], []⟩ (fun _ _ => rfl)
  · exact storeLoop_keys_eq_reads base messages ⟨[], []⟩ rfl
  · intro hfail
    obtain ⟨e, he⟩ :=
      storeLoopE_error base failing messages ⟨[], []⟩ (by simp) hfail
    refine ⟨⟨e, he⟩, ?_⟩
    unfold storeMessagesE
    rw [he]

/-- C9 witness: with the single read of key "gX" failing, the call errors and
the backend value at "gX" (and the backend as a whole) is unchanged. -/
theorem storeMessages_read_failure_atomicity_witness :
    (∃ e, storeLoopE (adapterOf (fun _ => none) (fun k => k == "gX"))
        [mkMsg 1 100 (some "gX")] ⟨[], []⟩ = Except.error e) ∧
    storeMessagesE (adapterOf (fun _ => none) (fun k => k == "gX"))
        (fun _ => none) [mkMsg 1 100 (some "gX")] = (fun _ => none) :=
  (storeMessages_read_failure_atomicity (fun _ => none) (fun k => k == "gX")
    [mkMsg 1 100 (some "gX")]).2.2 (by decide)

/-- Head equation of the indexed `flatMap`. -/
theorem projectFrom_cons (options : ToInputMediaOptions) (i : Nat) (msg : Message)
    (rest : List Message) :
    projectFrom options i (msg :: rest) =
      (match projectMessage options i msg, projectFrom options (i + 1) rest with
       | some items, some out => some (items ++ out)
       | _, _ => none) := rfl

/-- The descriptor produced for `photoMsgA` under `showOpts`. -/
def c4Item0 : InputMedia :=
  { mtype := "photo", media := "pA2", caption := some "capA",
    show_caption_above_media := some true }

/-- The descriptor produced for `photoMsgB` (input index 1) under `showOpts`. -/
def c4Item1 : InputMedia :=
  { mtype := "photo", media := "pB1", caption := some "capB",
    show_caption_above_media := some true }

/-- C4 counterexample: with `show_caption_above_media` set, the output item at
index 1 also carries the flag — refuting the claim that only output item 0
does. -/
theorem show_flag_counterexample :
    toInputMedia [photoMsgA, photoMsgB] showOpts = some [c4Item0, c4Item1] ∧
    c4Item1.show_caption_above_media = some true ∧
    ¬ (∀ out, toInputMedia [photoMsgA, photoMsgB] showOpts = some out →
        ∀ it ∈ out.drop 1, it.show_caption_above_media = none) := by
  refine ⟨by decide, rfl, ?_⟩
  intro h
  have := h [c4Item0, c4Item1] (by decide) c4Item1 (by decide)
  cases this

/-- C4 (amended): `toInputMedia` attaches the `show_caption_above_media` flag
(with the options' value) to every photo and video output item — including
animations re-typed as video — and never to document or audio items. -/
theorem show_flag_on_all_visual_items (options : ToInputMediaOptions)
    (messages : List Message) (out : List InputMedia)
    (h : toInputMedia messages options = some out) :
    ∀ it ∈ out,
      ((it.mtype = "photo" ∨ it.mtype = "video") →
        it.show_caption_above_media = options.show_caption_above_media) ∧
      ((it.mtype = "document" ∨ it.mtype = "audio") →
        it.show_caption_above_media = none) := by
  have hP : ∀ (i : Nat) (msg : Message) (items : List InputMedia),
      projectMessage options i msg = some items → ∀ it ∈ items,
        ((it.mtype = "photo" ∨ it.mtype = "video") →
          it.show_caption_above_media = options.show_caption_above_media) ∧
        ((it.mtype = "document" ∨ it.mtype = "audio") →
          it.show_caption_above_media = none) := by
    intro i msg items him it hit
    rcases projectMessage_item_shape him it hit with ⟨hty, hshow, _⟩ | ⟨hty, hshow, _⟩
    · refine ⟨fun _ => hshow, fun hdoc => ?_⟩
      rcases hty with h' | h' <;> rcases hdoc with h'' | h'' <;>
        rw [h'] at h'' <;> exact absurd h'' (by decide)
    · refine ⟨fun hvis => ?_, fun _ => hshow⟩
      rcases hty with h' | h' <;> rcases hvis with h'' | h'' <;>
        rw [h'] at h'' <;> exact absurd h'' (by decide)
  exact projectFrom_forall hP messages 0 out h

/-- C4 witness: applying the amended theorem at the concrete two-photo input
shows the index-1 item carries the flag value from the options. -/
theorem show_flag_on_all_visual_items_witness :
    c4Item1.show_caption_above_media = showOpts.show_caption_above_media :=
  (show_flag_on_all_visual_items showOpts [photoMsgA, photoMsgB] [c4Item0, c4Item1]
    (by decide) c4Item1 (by decide)).1 (Or.inl rfl)

/-- An animation message, for the converter witnesses. -/
def animMsg : Message :=
  { message_id := 5, chat := ⟨100⟩, animation := some ⟨"anim1"⟩ }

/-- C6 counterexample: a photo message with an empty variant list makes the
conversion throw (`msg.photo.at(-1)!.file_id` on `undefined`), refuting the
unconditional "the function never fails". -/
theorem converter_throw_counterexample :
    toInputMedia [emptyPhotoMsg] {} = none := by decide

/-- C6 (amended): per-type projection — a photo message contributes the last
entry of its variant list, a video its single reference, an animation a
descriptor re-typed as "video", documents and audio their references without
the placement or spoiler flags, and an unmatched message contributes nothing;
no output item is ever typed "animation"; and on inputs whose photo variant
lists are nonempty the function is total with output no longer than the
input — but a photo message with an empty variant list makes it fail. -/
theorem converter_projection (options : ToInputMediaOptions) :
    (∀ (i : Nat) (msg : Message) (ps : List FileRef) (p : FileRef),
      msg.photo = some ps → ps.getLast? = some p →
      ∃ it, projectMessage options i msg = some [it] ∧
        it.mtype = "photo" ∧ it.media = p.file_id) ∧
    (∀ (i : Nat) (msg : Message) (v : FileRef),
      msg.photo = none → msg.video = some v →
      ∃ it, projectMessage options i msg = some [it] ∧
        it.mtype = "video" ∧ it.media = v.file_id) ∧
    (∀ (i : Nat) (msg : Message) (a : FileRef),
      msg.photo = none → msg.video = none → msg.animation = some a →
      ∃ it, projectMessage options i msg = some [it] ∧
        it.mtype = "video" ∧ it.media = a.file_id) ∧
    (∀ (i : Nat) (msg : Message) (d : FileRef),
      msg.photo = none → msg.video = none → msg.animation = none →
      msg.document = some d →
      ∃ it, projectMessage options i msg = some [it] ∧
        it.mtype = "document" ∧ it.media = d.file_id ∧
        it.show_caption_above_media = none ∧ it.has_spoiler = none) ∧
    (∀ (i : Nat) (msg : Message) (a : FileRef),
      msg.photo = none → msg.video = none → msg.animation = none →
      msg.document = none → msg.audio = some a →
      ∃ it, projectMessage options i msg = some [it] ∧
        it.mtype = "audio" ∧ it.media = a.file_id ∧
        it.show_caption_above_media = none ∧ it.has_spoiler = none) ∧
    (∀ (i : Nat) (msg : Message),
      msg.photo = none → msg.video = none → msg.animation = none →
      msg.document = none → msg.audio = none →
      projectMessage options i msg = some []) ∧
    (∀ (messages : List Message) (out : List InputMedia),
      toInputMedia messages options = some out →
      ∀ it ∈ out, it.mtype ≠ "animation") ∧
    (∀ messages : List Message,
      (∀ msg ∈ messages, ∀ ps, msg.photo = some ps → ps ≠ []) →
      ∃ out, toInputMedia messages options = some out ∧
        out.length ≤ messages.length) := by
  refine ⟨?_, ?_, ?_, ?_, ?_, ?_, ?_, ?_⟩
  · intro i msg ps p hph hlast
    simp only [projectMessage, hph, hlast]
    exact ⟨_, rfl, rfl, rfl⟩
  · intro i msg v hph hv
    simp only [projectMessage, hph, hv]
    exact ⟨_, rfl, rfl, rfl⟩
  · intro i msg a hph hv ha
    simp only [projectMessage, hph, hv, ha]
    exact ⟨_, rfl, rfl, rfl⟩
  · intro i msg d hph hv ha hd
    simp only [projectMessage, hph, hv, ha, hd]
    exact ⟨_, rfl, rfl, rfl, rfl, rfl⟩
  · intro i msg a hph hv ha hd hau
    simp only [projectMessage, hph, hv, ha, hd, hau]
    exact ⟨_, rfl, rfl, rfl, rfl, rfl⟩
  · intro i msg hph hv ha hd hau
    simp only [projectMessage, hph, hv, ha, hd, hau]
  · intro messages out h
    have hP : ∀ (i : Nat) (msg : Message) (items : List InputMedia),
        projectMessage options i msg = some items → ∀ it ∈ items,
          it.mtype ≠ "animation" := by
      intro i msg items him it hit
      rcases projectMessage_item_shape him it hit with ⟨hty, _, _⟩ | ⟨hty, _, _⟩ <;>
        rcases hty with h' | h' <;> rw [h'] <;> decide
    exact projectFrom_forall hP messages 0 out h
  · intro messages hps
    exact projectFrom_total messages 0 hps

/-- C6 witness: the animation message projects to a "video" descriptor with
the animation's media reference, applying the amended theorem concretely. -/
theorem converter_projection_witness :
    ∃ it, projectMessage {} 0 animMsg = some [it] ∧
      it.mtype = "video" ∧ it.media = "anim1" :=
  (converter_projection {}).2.2.1 0 animMsg ⟨"anim1"⟩ rfl rfl rfl

/-- C7: when `options.caption` is set, output of input index 0 takes all its
caption fields from the options; without an override, and at every index
greater than 0, the caption fields are copied from the message (`parse_mode`
stays unset, as messages carry none); and on a 2-message input with an
override the first item carries the override caption and the second keeps its
own. -/
theorem caption_override_first_item (options : ToInputMediaOptions) :
    (∀ (i : Nat) (msg : Message) (items : List InputMedia),
      projectMessage options i msg = some items → ∀ it ∈ items,
        (options.caption.isSome = true ∧ i = 0 →
          it.caption = options.caption ∧ it.parse_mode = options.parse_mode ∧
            it.caption_entities = options.caption_entities) ∧
        (options.caption = none ∨ i ≠ 0 →
          it.caption = msg.caption ∧ it.parse_mode = none ∧
            it.caption_entities = msg.caption_entities)) ∧
    (∀ (m1 m2 : Message) (out : List InputMedia),
      options.caption.isSome = true →
      toInputMedia [m1, m2] options = some out → out.length = 2 →
      (out[0]?).map InputMedia.caption = some options.caption ∧
      (out[1]?).map InputMedia.caption = some m2.caption) := by
  constructor
  · exact fun i msg items h => projectMessage_caption_fields h
  · intro m1 m2 out hc h hlen
    rw [toInputMedia, projectFrom_cons] at h
    cases h1 : projectMessage options 0 m1 with
    | none => rw [h1] at h; simp at h
    | some items1 =>
      rw [h1] at h
      rw [projectFrom_cons] at h
      cases h2 : projectMessage options 1 m2 with
      | none => rw [h2] at h; simp at h
      | some items2 =>
        rw [h2] at h
        simp only [projectFrom] at h
        simp only [Option.some.injEq] at h
        subst h
        have hl1 : items1.length ≤ 1 := projectMessage_length h1
        have hl2 : items2.length ≤ 1 := projectMessage_length h2
        simp only [List.length_append, List.append_nil] at hlen
        have hl1' : items1.length = 1 := by omega
        have hl2' : items2.length = 1 := by omega
        obtain ⟨a, ha⟩ := List.length_eq_one.mp hl1'
        obtain ⟨b, hb⟩ := List.length_eq_one.mp hl2'
        subst ha
        subst hb
        constructor
        · have := (projectMessage_caption_fields h1 a (by simp)).1 ⟨hc, rfl⟩
          simp [this.1]
        · have := (projectMessage_caption_fields h2 b (by simp)).2 (Or.inr one_ne_zero)
          simp [this.1]

/-- The first descriptor of the override example. -/
def c7Item0 : InputMedia :=
  { mtype := "photo", media := "pA2", caption := some "NEW" }

/-- The second descriptor of the override example: keeps its own caption. -/
def c7Item1 : InputMedia :=
  { mtype := "photo", media := "pB1", caption := some "capB" }

/-- C7 witness: on the concrete two-photo input with override caption "NEW",
item 0 carries "NEW" and item 1 keeps "capB". -/
theorem caption_override_first_item_witness :
    (([c7Item0, c7Item1] : List InputMedia)[0]?).map InputMedia.caption =
      some (some "NEW") ∧
    (([c7Item0, c7Item1] : List InputMedia)[1]?).map InputMedia.caption =
      some (some "capB") :=
  (caption_override_first_item ovOpts).2 photoMsgA photoMsgB [c7Item0, c7Item1]
    rfl (by decide) (by decide)

/-- C10: the caption override targets input index 0, not output index 0 —
when the first input message has no recognized media type, the whole
conversion result coincides with the result under caption-stripped options,
so the override is silently lost rather than shifted to the first produced
item. -/
theorem caption_override_lost_on_skipped_head (options : ToInputMediaOptions)
    (m0 : Message) (rest : List Message)
    (h1 : m0.photo = none) (h2 : m0.video = none) (h3 : m0.animation = none)
    (h4 : m0.document = none) (h5 : m0.audio = none) :
    toInputMedia (m0 :: rest) options =
      toInputMedia (m0 :: rest)
        { options with caption := none, parse_mode := none, caption_entities := none } := by
  have hm0 : ∀ (opts : ToInputMediaOptions) (i : Nat), projectMessage opts i m0 = some [] := by
    intro opts i
    simp only [projectMessage, h1, h2, h3, h4, h5]
  rw [toInputMedia, toInputMedia, projectFrom_cons, projectFrom_cons, hm0, hm0]
  simp only [Nat.zero_add]
  rw [projectFrom_congr_pos options
    { options with caption := none, parse_mode := none, caption_entities := none }
    rfl rfl rest 1 1 one_ne_zero one_ne_zero]

/-- C10 witness: with an unrecognized first message, the concrete conversion
with an override caption equals the conversion without it — no item carries
"NEW". -/
theorem caption_override_lost_witness :
    toInputMedia [textMsg, photoMsgB] ovOpts =
      toInputMedia [textMsg, photoMsgB]
        { ovOpts with caption := none, parse_mode := none, caption_entities := none } :=
  caption_override_lost_on_skipped_head ovOpts textMsg [photoMsgB] rfl rfl rfl rfl rfl

end MediaGroups
